import Mathlib

/-!
Verification of the converge template preprocessor
(`src/render/preprocessor/preprocessor.go`) and the `user.user` resource
preparer.  Go strings are modelled as lists of characters (`Str`); Go maps
whose iteration order is never observable are modelled as association lists.
Functions that the Go runtime may fail to terminate on (the scope-aware
traversal) are modelled with an explicit fuel parameter returning `Option`,
where `some` certifies that the fuel sufficed and the value is the one the
Go code computes.
-/

namespace Converge

/-- Go strings, modelled as lists of characters. -/
abbrev Str := List Char

/-- Conversion from Lean string literals, for concrete test inputs. -/
def sl (s : String) : Str := s.toList

/-- Go `strings.Split(in, ".")` specialised to the single-character dot
separator; splits around every occurrence of the dot. -/
def splitDot : Str → List Str
  | [] => [[]]
  | c :: cs =>
    if c = '.' then [] :: splitDot cs
    else
      match splitDot cs with
      | [] => [[c]]
      | t :: ts => (c :: t) :: ts

/-- Embeds `SplitTerms` (preprocessor.go): split a string on dots. -/
def SplitTerms (s : Str) : List Str := splitDot s

/-- Embeds `JoinTerms` (preprocessor.go): `strings.Join(s, ".")`. -/
def JoinTerms : List Str → Str
  | [] => []
  | [t] => t
  | t :: u :: ts => t ++ '.' :: JoinTerms (u :: ts)

/-- Embeds `Inits` (preprocessor.go): the loop prepends `in[0:i+1]` for
each `i`, producing the heads of the list from longest to shortest. -/
def Inits (l : List Str) : List (List Str) :=
  (List.range l.length).foldl (fun results i => l.take (i + 1) :: results) []

/-- Embeds `Prefixes` (preprocessor.go): join each element of
`Inits(SplitTerms(in))`. -/
def Prefixes (s : Str) : List Str :=
  (Inits (SplitTerms s)).map JoinTerms

/-- Embeds `Find` (preprocessor.go): first element satisfying `f`,
with the boolean telling whether one was found. -/
def Find : List Str → (Str → Bool) → Str × Bool
  | [], _ => ([], false)
  | x :: xs, f => if f x then (x, true) else Find xs f

/-- Go `strings.Join(l, sep)` for an arbitrary separator. -/
def joinWith : List Str → Str → Str
  | [], _ => []
  | [t], _ => t
  | t :: u :: ts, sep => t ++ sep ++ joinWith (u :: ts) sep

/-- Embeds `MkCallPipeline` (preprocessor.go): join the dot-separated
terms with a pipe surrounded by single spaces. -/
def MkCallPipeline (s : Str) : Str := joinWith (SplitTerms s) (sl " | ")

/-- Kind tag of a graph node's value.  Modelled from the spec: the node
values (`module.Module`, `module.Preparer`, `parse.Node`) live outside
`src/`; the spec reduces the distinction consulted by
`TraverseUntilModule` to "is a module (by kind tag)". -/
inductive NodeKind where
  | module : NodeKind
  | other : NodeKind
deriving DecidableEq

/-- Modelled from the spec: the graph package is not under `src/`.  A graph
is a mapping from vertex ids to values plus directed edges; `Contains` is an
existence check, `Children` follows outgoing edges, `Get` fetches the value. -/
structure Graph where
  nodes : List (Str × NodeKind)
  edges : List (Str × Str)

/-- Modelled from the spec: `Contains(id)` is an existence check. -/
def Graph.Contains (g : Graph) (id : Str) : Bool :=
  g.nodes.any (fun p => p.1 = id)

/-- Modelled from the spec: `Get(id) → (meta, present)`. -/
def Graph.Get (g : Graph) (id : Str) : Option NodeKind :=
  (g.nodes.find? (fun p => p.1 = id)).map Prod.snd

/-- Modelled from the spec: `Children(id)` yields the targets of the
outgoing dependency edges. -/
def Graph.Children (g : Graph) (id : Str) : List Str :=
  (g.edges.filter (fun e => e.1 = id)).map Prod.snd

/-- Modelled from the spec: `ParentID(v)` drops the last segment of the
dotted id. -/
def ParentID (id : Str) : Str :=
  JoinTerms ((SplitTerms id).dropLast)

/-- Modelled from the spec: `SiblingID(base, leaf) = ParentID(base) + "." + leaf`. -/
def SiblingID (id leaf : Str) : Str :=
  ParentID id ++ '.' :: leaf

/-- Modelled from the spec: `IsRoot(v)` is true iff the id is exactly `root`. -/
def IsRoot (id : Str) : Bool := id = sl "root"

/-- Embeds `VertexSplit` (preprocessor.go): longest vertex-id prefix of `s`
in the graph plus the remainder after the separating dot. -/
def VertexSplit (g : Graph) (s : Str) : Str × Str × Bool :=
  match Find (Prefixes s) (fun p => g.Contains p) with
  | (_, false) => ([], s, false)
  | (pfx, true) =>
    if pfx = s then (pfx, [], true)
    else (pfx, s.drop (pfx.length + 1), true)

/-- Go `fmt.Sprintf("%q", s)` restricted to strings of printable
characters: surrounding double quotes, escaping an inner quote or
backslash.  Vertex ids contain neither, so on them this is exact. -/
def goQuote (s : Str) : Str :=
  '"' :: (s.map fun c =>
    if c = '"' then ['\\', '"'] else if c = '\\' then ['\\', '\\'] else [c]).flatten ++ ['"']

/-- Embeds `DesugarCall` (preprocessor.go): writes `(noderef %q)` for the
matched prefix and, when the remainder is nonempty, appends
`fmt.Sprintf("| %s", MkCallPipeline(rest))`. -/
def DesugarCall (g : Graph) (call : Str) : Except Str Str :=
  let pr := VertexSplit g call
  if pr.2.2 then
    .ok ((sl "(noderef ") ++ goQuote pr.1 ++ [')'] ++
      (if pr.2.1 = [] then [] else (sl "| ") ++ MkCallPipeline pr.2.1))
  else .error (sl "syntax error call to non-existant dependency")

/-- Embeds `TraverseUntilModule` (preprocessor.go): stop at the root, at a
missing vertex, or at a module value (the three Go type tests on the value
are modelled by the `NodeKind.module` tag). -/
def TraverseUntilModule (g : Graph) (id : Str) : Bool :=
  if IsRoot id then true
  else
    match g.Get id with
    | none => true
    | some k => k = NodeKind.module

/-- Go `history[id] = struct{}{}`: the visited set, as a list with
membership semantics. -/
def insertHist (id : Str) (hist : List Str) : List Str :=
  if id ∈ hist then hist else id :: hist

/-- Embeds the `for _, child := range g.Children(startingNode)` loop of
`VertexSplitTraverse`: skip visited or stopped children, recurse into the
rest (`rec` is the recursive call at the remaining fuel), return the first
found result; the visited set threads through like the shared Go map.
The outer `none` means the fuel ran out inside a child. -/
def childrenLoop (rec : Str → List Str → Option ((Str × Str × Bool) × List Str))
    (g : Graph) (stop : Graph → Str → Bool) :
    List Str → List Str → Option (Option (Str × Str × Bool) × List Str)
  | [], hist => some (none, hist)
  | c :: cs, hist =>
    if c ∈ hist then childrenLoop rec g stop cs hist
    else if stop g c then childrenLoop rec g stop cs hist
    else
      match rec c hist with
      | none => none
      | some ((v, m, true), hist2) => some (some (v, m, true), hist2)
      | some ((_, _, false), hist2) => childrenLoop rec g stop cs hist2

/-- Embeds `VertexSplitTraverse` (preprocessor.go).  The Go function can
recurse forever (nothing forces `stop` to ever hold), so the embedding
carries fuel: `none` means the fuel ran out, `some (result, history)` is
the value and final visited set the Go code computes.  Each recursion
level (into a child or into the parent) consumes one unit of fuel. -/
def VertexSplitTraverse (fuel : Nat) (g : Graph) (toFind start : Str)
    (stop : Graph → Str → Bool) (hist : List Str) :
    Option ((Str × Str × Bool) × List Str) :=
  match fuel with
  | 0 => none
  | fuel + 1 =>
    let hist1 := insertHist start hist
    match childrenLoop (fun c h => VertexSplitTraverse fuel g toFind c stop h)
        g stop (g.Children start) hist1 with
    | none => none
    | some (some res, hist2) => some (res, hist2)
    | some (none, hist2) =>
      if stop g start then some (([], toFind, false), hist2)
      else
        let r := VertexSplit g (SiblingID start toFind)
        if r.2.2 then some (r, hist2)
        else VertexSplitTraverse fuel g toFind (ParentID start) stop hist2

/-- Specification-level notion of a dotted prefix: the whole string, or an
initial part cut off right before a dot. -/
def DotPrefixOf (q s : Str) : Prop := q = s ∨ ∃ r, s = q ++ '.' :: r

/-- Concrete graph for the longest-prefix scenario: vertices `a` and `a.b`. -/
def gC1 : Graph := { nodes := [(sl "a", .other), (sl "a.b", .other)], edges := [] }

/-- Concrete graph of the lexical-scope scenario: the four vertices named in
the spec, with the two `module` vertices carrying the module kind tag. -/
def gC2 : Graph :=
  { nodes := [(sl "root.m1.module", .module), (sl "root.m1.file.x", .other),
      (sl "root.m2.module", .module), (sl "root.m2.file.y", .other)],
    edges := [] }

/-- Concrete graph containing only the vertex `root.x`, the sibling that a
traversal from `root.m` for `x` would resolve to. -/
def gC5 : Graph := { nodes := [(sl "root.x", .other)], edges := [] }

/-- Concrete graph containing the vertex `task.go-dl` of the desugaring
scenario. -/
def gC7 : Graph := { nodes := [(sl "task.go-dl", .other)], edges := [] }

/-- Go values as seen by the introspector: the variants the preprocessor
spec exercises are strings, integers, single-level pointers (possibly nil)
and structs, whose fields carry a name, the `Anonymous` (embedded) flag and
a value. -/
inductive Value where
  | str : String → Value
  | intV : Int → Value
  | ptr : Option Value → Value
  | structV : String → List (String × Bool × Value) → Value

/-- Field maps of `FieldMap`: Go maps from field name to value, as
association lists (Go map iteration order is never observable in the
results modelled here). -/
abbrev FMap := List (String × Value)

/-- Go `strings.ToLower` for the ASCII field names the spec exercises
(defined over the character list so that it evaluates by `rfl`). -/
def goToLower (s : String) : String := ⟨s.data.map Char.toLower⟩

/-- Go map read `m[k]`. -/
def getKey {α : Type} : List (String × α) → String → Option α
  | [], _ => none
  | (k, v) :: rest, key => if k = key then some v else getKey rest key

/-- Go map write `m[k] = v`. -/
def setKey {α : Type} : List (String × α) → String → α → List (String × α)
  | [], key, v => [(key, v)]
  | (k, w) :: rest, key, v =>
    if k = key then (key, v) :: rest else (k, w) :: setKey rest key v

/-- Go `delete(m, k)`. -/
def delKey {α : Type} (m : List (String × α)) (key : String) : List (String × α) :=
  m.filter (fun p => p.1 != key)

/-- Go `if _, ok := m[k]; !ok { m[k] = v }`. -/
def setIfAbsent {α : Type} (m : List (String × α)) (key : String) (v : α) :
    List (String × α) :=
  match getKey m key with
  | some _ => m
  | none => setKey m key v

/-- Go `if n, ok := m[k]; ok { m[k] = n + 1 } else { m[k] = 1 }`. -/
def bumpKey (m : List (String × Nat)) (key : String) : List (String × Nat) :=
  match getKey m key with
  | some n => setKey m key (n + 1)
  | none => setKey m key 1

/-- Number of embedded records that contributed a key, as recorded in
`embeddedRefs` (zero when the key is absent). -/
def countOf (emb : List (String × Nat)) (n : String) : Nat :=
  (getKey emb n).getD 0

/-- Embeds `canBeNil` (preprocessor.go) on the modelled variants: only
pointers are nil-able here. -/
def canBeNil : Value → Bool
  | .ptr _ => true
  | _ => false

/-- Go `v.IsNil()` on the modelled variants. -/
def isNil : Value → Bool
  | .ptr none => true
  | _ => false

/-- Embeds the `for indirectStruct(val) { val = val.Elem() }` loop of
`FieldMap`: dereference non-nil pointers. -/
def derefAll : Value → Value
  | .ptr (some v) => derefAll v
  | v => v

/-- Embeds the `for k, v := range FieldMap(embedded)` body: count each key
in `embeddedRefs` and insert the binding into `results` only if absent. -/
def addEmbedded (emb : List (String × Nat)) (results : FMap) (inner : FMap) :
    List (String × Nat) × FMap :=
  inner.foldl (fun acc kv => (bumpKey acc.1 kv.1, setIfAbsent acc.2 kv.1 kv.2))
    (emb, results)

/-- Embeds the post-loop of `FieldMap` over `embeddedRefs`: a name
contributed by two or more embedded records is rebound to the outer field
when `unembeddedRefs` has it and deleted from the results otherwise. -/
def applyConflicts (emb : List (String × Nat)) (unemb results : FMap) : FMap :=
  emb.foldl (fun res p =>
    if p.2 ≤ 1 then res
    else
      match getKey unemb p.1 with
      | some w => setKey res p.1 w
      | none => delKey res p.1) results

/-- Embeds the field loop of `FieldMap` (preprocessor.go).  `fm` is the
recursive call used on embedded field values; its `none` (a reflect panic)
aborts the loop.  A nil embedded value only binds its own name; a non-nil
embedded value merges its recursively computed map and then also binds its
own name (the unconditional `results[sfield.Name] = val.Field(idx)`);
a named field records itself in `unembeddedRefs` and binds its name. -/
def fieldLoopF (fm : Value → Option FMap) :
    List (String × Bool × Value) → List (String × Nat) → FMap → FMap →
    Option (List (String × Nat) × FMap × FMap)
  | [], emb, unemb, results => some (emb, unemb, results)
  | (name, anon, fval) :: rest, emb, unemb, results =>
    if anon then
      if canBeNil fval && isNil fval then
        fieldLoopF fm rest emb unemb (setKey results name fval)
      else
        match fm fval with
        | none => none
        | some inner =>
          let p := addEmbedded emb results inner
          fieldLoopF fm rest p.1 unemb (setKey p.2 name fval)
    else
      fieldLoopF fm rest emb (setKey unemb name fval) (setKey results name fval)

/-- Embeds `FieldMap` (preprocessor.go), with a fuel parameter that bounds
the embedding depth: one unit is consumed per embedded-record level, so any
fuel exceeding the nesting depth of the finite value gives the Go result
(`fieldMap_value_mono` below shows the result is stable in the fuel).
`none` is exhausted fuel or the reflect panic
`NumField of non-struct type` raised when the dereferenced value is not a
struct (a nil-able nil value short-circuits to the empty map first, as in
the Go code). -/
def FieldMap : Nat → Value → Option FMap
  | 0, _ => none
  | fuel + 1, v =>
    if canBeNil v && isNil v then some [] else
    match derefAll v with
    | .structV _ fields =>
      (fieldLoopF (FieldMap fuel) fields [] [] []).map
        (fun x => applyConflicts x.1 x.2.1 x.2.2)
    | _ => none

/-- Embeds `lookupMap` (preprocessor.go): a map from lowercase field names
to canonical names, paired with the original field map. -/
def lookupMap (src : FMap) : List (String × String) × FMap :=
  (src.foldl (fun acc p => setKey acc (goToLower p.1) p.1) [], src)

/-- Result of `EvalTerms`: the Go `(interface{}, error)` pair plus the
possibility of a reflect panic.  `errNoField` carries the dynamic type
name of the receiver, the lowercased term, and the valid keys that the
`%T has no defined field named %s: should be one of: %v` message
enumerates. -/
inductive EvalRes where
  | ok : Value → EvalRes
  | errUnresolvable : EvalRes
  | errNoField : String → String → List String → EvalRes
  | panicked : EvalRes

/-- Go `%T`, the dynamic type of a value, at the precision the model
needs. -/
def typeName : Value → String
  | .str _ => "string"
  | .intV _ => "int"
  | .ptr _ => "ptr"
  | .structV n _ => n

/-- Go `val.Kind() == reflect.Ptr && val.IsNil()`. -/
def isNilPtr : Value → Bool
  | .ptr none => true
  | _ => false

/-- Embeds `EvalTerms` (preprocessor.go): a left fold of field accesses.
Each step lowercases the term, looks it up in the case-folding map of
`FieldMap(obj)`, returns the named missing-field error when absent,
returns `ErrUnresolvable` when the value is a nil pointer, and otherwise
continues on the field value.  A non-struct receiver makes `FieldMap`
panic.  (The inner `getKey fm key = none` arm is unreachable — `key` comes
from `fm`'s own keys — and Go would also panic there, on the zero
`reflect.Value`.)  The fuel is handed to each `FieldMap` call. -/
def EvalTerms (fuel : Nat) (obj : Value) : List String → EvalRes
  | [] => .ok obj
  | term :: rest =>
    match FieldMap fuel obj with
    | none => .panicked
    | some fm =>
      let keys := (lookupMap fm).1
      match getKey keys (goToLower term) with
      | none => .errNoField (typeName obj) (goToLower term) (keys.map Prod.fst)
      | some key =>
        match getKey fm key with
        | none => .panicked
        | some val =>
          if isNilPtr val then .errUnresolvable
          else EvalTerms fuel val rest

/-- Go types as seen by the introspector (`reflect.Type`): primitives,
pointer types and struct types with named, possibly embedded fields. -/
inductive GoType where
  | prim : String → GoType
  | ptrT : GoType → GoType
  | structT : String → List (String × Bool × GoType) → GoType

/-- Go `for t.Kind() == reflect.Ptr { t = t.Elem() }`, as used by
`fieldMap`, `ListFields` and `interfaceToConcreteType`. -/
def derefT : GoType → GoType
  | .ptrT t => derefT t
  | t => t

/-- Printable name of a type, standing in for Go's type identity:
distinct Go types have distinct names. -/
def goTypeName : GoType → String
  | .prim n => n
  | .ptrT t => "*" ++ goTypeName t
  | .structT n _ => n

/-- Embeds `ListFields` (preprocessor.go), which inspects the type of its
argument: after pointer dereference a non-struct yields the
`element is %s, not a struct` error naming the type, and a struct yields
its field names in declaration order. -/
def ListFields (t : GoType) : Except String (List String) :=
  match derefT t with
  | .structT _ fields => .ok (fields.map Prod.fst)
  | other => .error ("element is " ++ goTypeName other ++ ", not a struct")

/-- Lowercase-to-canonical field-name maps, as produced by `fieldMap`. -/
abbrev SMap := List (String × String)

/-- The process-wide `fieldMapCache`, keyed by type identity (type name in
this model). -/
abbrev Cache := List (String × SMap)

/-- Embeds the field loop of `addFieldsToMap` (preprocessor.go); `recFn`
is the recursive call used on embedded struct types.  An anonymous field
first binds its own lowercased name if absent and then, when its
dereferenced type is a struct, recurses with the SAME accumulated map `m`;
a named field whose lowercased name is already bound records a conflict,
and otherwise binds unless already conflicted. -/
def typeLoop
    (recFn : SMap → List String → GoType → Cache → Option (SMap × List String × Cache)) :
    List (String × Bool × GoType) → SMap → List String → Cache →
    Option (SMap × List String × Cache)
  | [], m, conflicts, cache => some (m, conflicts, cache)
  | (name, anon, ft) :: rest, m, conflicts, cache =>
    if anon then
      let m1 := match getKey m (goToLower name) with
        | some _ => m
        | none => setKey m (goToLower name) name
      match derefT ft with
      | .structT sn sfields =>
        match recFn m1 conflicts (.structT sn sfields) cache with
        | none => none
        | some (m2, c2, cache2) => typeLoop recFn rest m2 c2 cache2
      | _ => typeLoop recFn rest m1 conflicts cache
    else
      match getKey m (goToLower name) with
      | some _ => typeLoop recFn rest m
          (if goToLower name ∈ conflicts then conflicts else goToLower name :: conflicts) cache
      | none =>
        if goToLower name ∈ conflicts then typeLoop recFn rest m conflicts cache
        else typeLoop recFn rest (setKey m (goToLower name) name) conflicts cache

/-- Embeds `addFieldsToMap` (preprocessor.go) with fuel for the embedding
depth.  The function first consults the process-wide cache — returning the
cached map INSTEAD of the accumulated one — and on a miss folds the fields
and then publishes the ACCUMULATED map under this type's key.  Both
behaviours are exactly the Go code's, and they are what the determinism
result exercises.  `none` is exhausted fuel, or the reflect panic Go
would raise on a non-struct argument (unreachable from `fieldMap`). -/
def addFieldsToMap : Nat → SMap → List String → GoType → Cache →
    Option (SMap × List String × Cache)
  | 0, _, _, _, _ => none
  | fuel + 1, m, conflicts, t, cache =>
    match getKey cache (goTypeName t) with
    | some cached => some (cached, conflicts, cache)
    | none =>
      match t with
      | .structT sn sfields =>
        match typeLoop (addFieldsToMap fuel) sfields m conflicts cache with
        | none => none
        | some (m2, c2, cache2) =>
          some (m2, c2, setKey cache2 (goTypeName (.structT sn sfields)) m2)
      | _ => none

/-- Embeds `fieldMap` (preprocessor.go, the lowercase type-level one):
dereference the pointer type, fail with the non-struct error (`none` in
the inner option, cache unchanged), else run `addFieldsToMap` with a fresh
map and conflict set against the given cache state.  The fuel bounds the
embedded-struct depth as in `addFieldsToMap`. -/
def fieldMap (fuel : Nat) (t : GoType) (cache : Cache) :
    Option (Option SMap × Cache) :=
  match derefT t with
  | .structT sn sfields =>
    match addFieldsToMap fuel [] [] (.structT sn sfields) cache with
    | none => none
    | some (m, _, cache2) => some (some m, cache2)
  | _ => some (none, cache)

/-- Modelled from part_002's doc comments: `StatePresent`, the default
user state (the `State` type and constant live outside `src/`). -/
def StatePresent : String := "present"

/-- Embeds the `user.Preparer` record (src/unnamed/part_002). `UID`/`GID`
model the Go `*uint32` fields. -/
structure Preparer where
  Username : String
  NewUsername : String
  UID : Option Nat
  GroupName : String
  GID : Option Nat
  Name : String
  HomeDir : String
  MoveDir : Bool
  State : String

/-- Modelled from the spec and the assignments in part_002's `Prepare`:
the `user.User` task record with the fields `Prepare` fills in (`NewUser`
leaves `UID`/`GID` as empty strings when unset). -/
structure User where
  Username : String
  NewUsername : String
  GroupName : String
  Name : String
  HomeDir : String
  MoveDir : Bool
  State : String
  UID : String
  GID : String

/-- Go `p.UID != nil && *p.UID == math.MaxUint32`. -/
def isMaxUint32 : Option Nat → Bool
  | some u => u == 4294967295
  | none => false

/-- Embeds `Preparer.Prepare` (src/unnamed/part_002): reject a maximal
uid or gid and `move_dir` without `home_dir`; otherwise default the state
to present and copy the fields into the task, stringifying uid and gid. -/
def Prepare (p : Preparer) : Except String User :=
  if isMaxUint32 p.UID then .error "user \"uid\" parameter out of range"
  else if isMaxUint32 p.GID then .error "user \"gid\" parameter out of range"
  else if p.MoveDir && (p.HomeDir == "") then
    .error "user \"home_dir\" parameter required with \"move_dir\" parameter"
  else
    .ok { Username := p.Username, NewUsername := p.NewUsername,
          GroupName := p.GroupName, Name := p.Name, HomeDir := p.HomeDir,
          MoveDir := p.MoveDir,
          State := if p.State == "" then StatePresent else p.State,
          UID := match p.UID with | some u => toString u | none => "",
          GID := match p.GID with | some u => toString u | none => "" }

/-- Embedded record `E1{ Shared string; A string }` of the flattening
scenario, with concrete field values. -/
def e1Val : Value := .structV "E1" [("Shared", false, .str "s1"), ("A", false, .str "a1")]

/-- Embedded record `E2{ Shared string; B string }` of the flattening
scenario. -/
def e2Val : Value := .structV "E2" [("Shared", false, .str "s2"), ("B", false, .str "b1")]

/-- The outer record `Outer{ Name; E1; E2 }` of the flattening scenario
(`E1` and `E2` embedded). -/
def outerEx : Value := .structV "Outer"
  [("Name", false, .str "nm"), ("E1", true, e1Val), ("E2", true, e2Val)]

/-- The outer record with a `Shared` field of its own added. -/
def outerEx2 : Value := .structV "Outer2"
  [("Name", false, .str "nm"), ("E1", true, e1Val), ("E2", true, e2Val),
    ("Shared", false, .str "os")]

/-- Record with a nil `Cfg` pointer field, for the nil-traversal
scenario. -/
def objC4 : Value := .structV "Obj" [("Cfg", false, .ptr none), ("Port", false, .intV 80)]

/-- Struct type `E { B int }` of the cache-determinism scenario. -/
def eType : GoType := .structT "E" [("B", false, .prim "int")]

/-- Struct type `O { A int; E }` embedding `E`, of the cache-determinism
scenario. -/
def oType : GoType := .structT "O" [("A", false, .prim "int"), ("E", true, eType)]

/-- Concrete valid `user.user` preparer input. -/
def pC10 : Preparer :=
  { Username := "alice", NewUsername := "", UID := some 5, GroupName := "",
    GID := none, Name := "", HomeDir := "/home/alice", MoveDir := false, State := "" }

/-- The task `Prepare` produces from `pC10`. -/
def uC10 : User :=
  { Username := "alice", NewUsername := "", GroupName := "", Name := "",
    HomeDir := "/home/alice", MoveDir := false, State := "present",
    UID := "5", GID := "" }

theorem splitDot_ne_nil (s : Str) : splitDot s ≠ [] := by
  cases s with
  | nil => simp [splitDot]
  | cons c cs =>
    simp only [splitDot]
    by_cases hc : c = '.'
    · simp [hc]
    · cases h : splitDot cs with
      | nil => simp [hc]
      | cons t ts => simp [hc]

theorem splitDot_cons_dot (cs : Str) : splitDot ('.' :: cs) = [] :: splitDot cs := by
  simp [splitDot]

theorem splitDot_cons_ne (c : Char) (cs : Str) (hc : c ≠ '.') :
    splitDot (c :: cs) = (c :: (splitDot cs).headI) :: (splitDot cs).tail := by
  simp only [splitDot, if_neg hc]
  cases h : splitDot cs with
  | nil => exact absurd h (splitDot_ne_nil cs)
  | cons t ts => simp

theorem joinTerms_cons (t : Str) (ts : List Str) :
    JoinTerms (t :: ts) = t ++ (if ts = [] then [] else '.' :: JoinTerms ts) := by
  cases ts with
  | nil => simp [JoinTerms]
  | cons u us => simp [JoinTerms]

theorem joinTerms_splitDot (s : Str) : JoinTerms (splitDot s) = s := by
  induction s with
  | nil => simp [splitDot, JoinTerms]
  | cons c cs ih =>
    by_cases hc : c = '.'
    · subst hc
      rw [splitDot_cons_dot, joinTerms_cons, if_neg (splitDot_ne_nil cs), ih]
      simp
    · rw [splitDot_cons_ne c cs hc]
      cases h : splitDot cs with
      | nil => exact absurd h (splitDot_ne_nil cs)
      | cons t ts =>
        rw [h] at ih
        rw [joinTerms_cons] at ih ⊢
        simp only [List.headI, List.tail, List.cons_append]
        rw [ih]

theorem joinTerms_append (l₁ l₂ : List Str) (h₁ : l₁ ≠ []) (h₂ : l₂ ≠ []) :
    JoinTerms (l₁ ++ l₂) = JoinTerms l₁ ++ '.' :: JoinTerms l₂ := by
  induction l₁ with
  | nil => exact absurd rfl h₁
  | cons t ts ih =>
    cases ts with
    | nil =>
      rw [List.singleton_append, joinTerms_cons, joinTerms_cons, if_neg h₂, if_pos rfl]
      simp
    | cons u us =>
      have hne : u :: us ≠ [] := by simp
      rw [List.cons_append, joinTerms_cons, joinTerms_cons, if_neg (by simp),
        if_neg (by simp : u :: us ≠ []), ih hne]
      simp

theorem splitDot_append (a b : Str) : splitDot (a ++ '.' :: b) = splitDot a ++ splitDot b := by
  induction a with
  | nil =>
    rw [List.nil_append, splitDot_cons_dot]
    rfl
  | cons c cs ih =>
    rw [List.cons_append]
    by_cases hc : c = '.'
    · subst hc
      rw [splitDot_cons_dot, splitDot_cons_dot, ih]
      rfl
    · rw [splitDot_cons_ne c _ hc, splitDot_cons_ne c cs hc, ih]
      cases h : splitDot cs with
      | nil => exact absurd h (splitDot_ne_nil cs)
      | cons t ts => simp

theorem joinTerms_take_drop (l : List Str) (k : Nat) (hk0 : 0 < k) (hk : k < l.length) :
    JoinTerms l = JoinTerms (l.take k) ++ '.' :: JoinTerms (l.drop k) := by
  conv_lhs => rw [← List.take_append_drop k l]
  rw [joinTerms_append]
  · intro h
    have := congrArg List.length h
    simp [Nat.min_eq_left (Nat.le_of_lt hk)] at this
    omega
  · intro h
    have := congrArg List.length h
    simp at this
    omega

theorem foldl_cons_eq (f : Nat → List Str) :
    ∀ (xs : List Nat) (acc : List (List Str)),
      xs.foldl (fun r i => f i :: r) acc = (xs.map f).reverse ++ acc
  | [], acc => by simp
  | x :: xs, acc => by
    simp only [List.foldl_cons, List.map_cons, List.reverse_cons, foldl_cons_eq f xs]
    simp

theorem inits_eq (l : List Str) :
    Inits l = ((List.range l.length).map (fun i => l.take (i + 1))).reverse := by
  rw [Inits, foldl_cons_eq, List.append_nil]

theorem prefixes_eq (s : Str) :
    Prefixes s = ((List.range (splitDot s).length).map
      (fun i => JoinTerms ((splitDot s).take (i + 1)))).reverse := by
  rw [Prefixes, SplitTerms, inits_eq, List.map_reverse, List.map_map]
  rfl

theorem mem_prefixes_iff (q s : Str) :
    q ∈ Prefixes s ↔ ∃ k, k < (splitDot s).length ∧ q = JoinTerms ((splitDot s).take (k + 1)) := by
  rw [prefixes_eq]
  simp only [List.mem_reverse, List.mem_map, List.mem_range]
  constructor
  · rintro ⟨k, hk, rfl⟩
    exact ⟨k, hk, rfl⟩
  · rintro ⟨k, hk, rfl⟩
    exact ⟨k, hk, rfl⟩

theorem mem_prefixes_iff_dotPrefixOf (q s : Str) :
    q ∈ Prefixes s ↔ DotPrefixOf q s := by
  rw [mem_prefixes_iff]
  constructor
  · rintro ⟨k, hk, rfl⟩
    by_cases he : k + 1 = (splitDot s).length
    · left
      rw [he, List.take_length, joinTerms_splitDot]
    · right
      refine ⟨JoinTerms ((splitDot s).drop (k + 1)), ?_⟩
      conv_lhs => rw [← joinTerms_splitDot s]
      exact joinTerms_take_drop _ (k + 1) (Nat.succ_pos k) (by omega)
  · rintro (rfl | ⟨r, rfl⟩)
    · have hpos : 0 < (splitDot q).length :=
        List.length_pos.mpr (splitDot_ne_nil q)
      refine ⟨(splitDot q).length - 1, by omega, ?_⟩
      rw [show (splitDot q).length - 1 + 1 = (splitDot q).length by omega,
        List.take_length, joinTerms_splitDot]
    · have hq : splitDot (q ++ '.' :: r) = splitDot q ++ splitDot r := splitDot_append q r
      have hqpos : 0 < (splitDot q).length := List.length_pos.mpr (splitDot_ne_nil q)
      have hrpos : 0 < (splitDot r).length := List.length_pos.mpr (splitDot_ne_nil r)
      refine ⟨(splitDot q).length - 1, ?_, ?_⟩
      · rw [hq]
        simp only [List.length_append]
        omega
      · rw [hq, show (splitDot q).length - 1 + 1 = (splitDot q).length by omega,
          List.take_left, joinTerms_splitDot]

theorem joinTerms_take_length_lt (l : List Str) (a b : Nat) (ha : 0 < a) (hab : a < b)
    (hb : b ≤ l.length) :
    (JoinTerms (l.take a)).length < (JoinTerms (l.take b)).length := by
  have htake : (l.take b).length = b := by
    rw [List.length_take]
    omega
  have hsplit : JoinTerms (l.take b) =
      JoinTerms ((l.take b).take a) ++ '.' :: JoinTerms ((l.take b).drop a) := by
    refine joinTerms_take_drop (l.take b) a ha ?_
    omega
  rw [List.take_take, Nat.min_eq_left (Nat.le_of_lt hab)] at hsplit
  rw [hsplit]
  simp

theorem prefixes_pairwise_length (s : Str) :
    (Prefixes s).Pairwise (fun a b => b.length < a.length) := by
  rw [prefixes_eq, List.pairwise_reverse, List.pairwise_map]
  refine (List.pairwise_lt_range _).imp_of_mem ?_
  intro i j hi hj hij
  simp only [List.mem_range] at hi hj
  exact joinTerms_take_length_lt _ (i + 1) (j + 1) (Nat.succ_pos i) (by omega) (by omega)

theorem find_eq_some (f : Str → Bool) :
    ∀ (slice : List Str) (x : Str), Find slice f = (x, true) →
      ∃ l₁ l₂, slice = l₁ ++ x :: l₂ ∧ f x = true ∧ ∀ y ∈ l₁, f y = false
  | [], x => by simp [Find]
  | a :: as, x => by
    cases hf : f a with
    | true =>
      intro h
      simp only [Find, hf, if_true] at h
      have hx : a = x := congrArg Prod.fst h
      subst hx
      exact ⟨[], as, rfl, hf, by simp⟩
    | false =>
      intro h
      simp only [Find, hf, if_false] at h
      obtain ⟨l₁, l₂, rfl, hx, hl₁⟩ := find_eq_some f as x h
      refine ⟨a :: l₁, l₂, rfl, hx, ?_⟩
      intro y hy
      rcases List.mem_cons.mp hy with rfl | hy
      · exact hf
      · exact hl₁ y hy

theorem find_eq_none (f : Str → Bool) :
    ∀ (slice : List Str), (∀ y ∈ slice, f y = false) → Find slice f = ([], false)
  | [], _ => rfl
  | a :: as, h => by
    have ha : f a = false := h a (by simp)
    simp only [Find, ha]
    exact find_eq_none f as fun y hy => h y (List.mem_cons_of_mem a hy)

theorem getKey_setKey_self {α : Type} (m : List (String × α)) (k : String) (v : α) :
    getKey (setKey m k v) k = some v := by
  induction m with
  | nil => simp [setKey, getKey]
  | cons p rest ih =>
    obtain ⟨k', w⟩ := p
    by_cases h : k' = k
    · simp [setKey, getKey, h]
    · simp [setKey, getKey, h, ih]

theorem getKey_setKey_ne {α : Type} (m : List (String × α)) (k k' : String) (v : α)
    (h : k' ≠ k) : getKey (setKey m k v) k' = getKey m k' := by
  induction m with
  | nil => simp [setKey, getKey, Ne.symm h]
  | cons p rest ih =>
    obtain ⟨k₀, w⟩ := p
    by_cases h0 : k₀ = k
    · subst h0
      simp [setKey, getKey, Ne.symm h]
    · simp only [setKey, if_neg h0, getKey]
      by_cases h1 : k₀ = k' <;> simp [h1, ih]

theorem getKey_delKey_self {α : Type} (m : List (String × α)) (k : String) :
    getKey (delKey m k) k = none := by
  induction m with
  | nil => simp [delKey, getKey]
  | cons p rest ih =>
    obtain ⟨k₀, w⟩ := p
    by_cases h0 : k₀ = k
    · simpa [delKey, h0] using ih
    · simpa [delKey, getKey, h0] using ih

theorem getKey_delKey_ne {α : Type} (m : List (String × α)) (k k' : String)
    (h : k' ≠ k) : getKey (delKey m k) k' = getKey m k' := by
  induction m with
  | nil => simp [delKey]
  | cons p rest ih =>
    obtain ⟨k₀, w⟩ := p
    by_cases h0 : k₀ = k
    · subst h0
      simp only [delKey, List.filter_cons]
      simp only [bne_self_eq_false, Bool.false_eq_true, if_false]
      rw [getKey, if_neg (fun hh => h hh.symm)] at *
      simpa [delKey] using ih
    · simp only [delKey, List.filter_cons, bne_iff_ne, ne_eq, h0, not_false_eq_true,
        if_true, getKey]
      by_cases h1 : k₀ = k'
      · simp [h1]
      · simp [h1]
        simpa [delKey] using ih

theorem getKey_setIfAbsent_of_some {α : Type} (m : List (String × α)) (k k' : String)
    (v w : α) (h : getKey m k' = some w) : getKey (setIfAbsent m k v) k' = some w := by
  unfold setIfAbsent
  cases hk : getKey m k with
  | some _ => exact h
  | none =>
    by_cases he : k' = k
    · subst he
      rw [hk] at h
      cases h
    · rw [getKey_setKey_ne m k k' v he]
      exact h

theorem getKey_setIfAbsent_ne {α : Type} (m : List (String × α)) (k k' : String)
    (v : α) (h : k' ≠ k) : getKey (setIfAbsent m k v) k' = getKey m k' := by
  unfold setIfAbsent
  cases hk : getKey m k with
  | some _ => rfl
  | none => exact getKey_setKey_ne m k k' v h

theorem addEmbedded_nil (emb : List (String × Nat)) (results : FMap) :
    addEmbedded emb results [] = (emb, results) := rfl

theorem addEmbedded_cons (emb : List (String × Nat)) (results : FMap) (k : String)
    (v : Value) (rest : FMap) :
    addEmbedded emb results ((k, v) :: rest) =
      addEmbedded (bumpKey emb k) (setIfAbsent results k v) rest := rfl

theorem addEmbedded_results_get (n : String) :
    ∀ (inner : FMap) (emb : List (String × Nat)) (results : FMap),
      getKey (addEmbedded emb results inner).2 n =
        match getKey results n with
        | some w => some w
        | none => getKey inner n
  | [], emb, results => by
    cases h : getKey results n <;> simp [addEmbedded_nil, h, getKey]
  | (k, v) :: rest, emb, results => by
    rw [addEmbedded_cons, addEmbedded_results_get n rest]
    cases h : getKey results n with
    | some w =>
      rw [getKey_setIfAbsent_of_some results k n v w h]
    | none =>
      by_cases he : n = k
      · subst he
        unfold setIfAbsent
        rw [h, getKey_setKey_self]
        simp [getKey]
      · rw [getKey_setIfAbsent_ne results k n v he, h]
        simp [getKey, Ne.symm he]

theorem countOf_bumpKey (emb : List (String × Nat)) (k n : String) :
    countOf (bumpKey emb k) n = if n = k then countOf emb n + 1 else countOf emb n := by
  unfold bumpKey countOf
  cases hk : getKey emb k with
  | some c =>
    by_cases he : n = k
    · subst he
      rw [getKey_setKey_self, hk]
      simp
    · rw [getKey_setKey_ne emb k n _ he, if_neg he]
  | none =>
    by_cases he : n = k
    · subst he
      rw [getKey_setKey_self, hk]
      simp
    · rw [getKey_setKey_ne emb k n _ he, if_neg he]

theorem addEmbedded_count_ge (n : String) :
    ∀ (inner : FMap) (emb : List (String × Nat)) (results : FMap),
      countOf emb n ≤ countOf (addEmbedded emb results inner).1 n
  | [], emb, results => le_refl _
  | (k, v) :: rest, emb, results => by
    rw [addEmbedded_cons]
    refine le_trans ?_ (addEmbedded_count_ge n rest _ _)
    rw [countOf_bumpKey]
    by_cases he : n = k <;> simp [he]

theorem addEmbedded_count_mem (n : String) :
    ∀ (inner : FMap) (emb : List (String × Nat)) (results : FMap) (w : Value),
      getKey inner n = some w →
      countOf emb n + 1 ≤ countOf (addEmbedded emb results inner).1 n
  | [], emb, results, w, h => by cases h
  | (k, v) :: rest, emb, results, w, h => by
    rw [addEmbedded_cons]
    by_cases he : k = n
    · refine le_trans ?_ (addEmbedded_count_ge n rest _ _)
      rw [countOf_bumpKey, if_pos he.symm]
    · rw [getKey, if_neg he] at h
      refine le_trans ?_ (addEmbedded_count_mem n rest _ _ w h)
      rw [countOf_bumpKey, if_neg (Ne.symm he)]

theorem fieldLoopF_append (fm : Value → Option FMap) :
    ∀ (xs ys : List (String × Bool × Value)) (e : List (String × Nat)) (u r : FMap),
      fieldLoopF fm (xs ++ ys) e u r =
        match fieldLoopF fm xs e u r with
        | none => none
        | some (e2, u2, r2) => fieldLoopF fm ys e2 u2 r2
  | [], ys, e, u, r => by simp [fieldLoopF]
  | (name, anon, fval) :: xs, ys, e, u, r => by
    cases anon with
    | false =>
      simp only [List.cons_append, fieldLoopF, Bool.false_eq_true, if_false]
      exact fieldLoopF_append fm xs ys e (setKey u name fval) (setKey r name fval)
    | true =>
      simp only [List.cons_append, fieldLoopF, if_true]
      cases hnil : (canBeNil fval && isNil fval) with
      | true =>
        rw [if_pos rfl, if_pos rfl]
        exact fieldLoopF_append fm xs ys e u (setKey r name fval)
      | false =>
        rw [if_neg Bool.false_ne_true, if_neg Bool.false_ne_true]
        cases hfm : fm fval with
        | none => rfl
        | some inner =>
          exact fieldLoopF_append fm xs ys (addEmbedded e r inner).1 u
            (setKey (addEmbedded e r inner).2 name fval)

theorem fieldLoopF_preserve (fm : Value → Option FMap) (n : String) (w : Value) :
    ∀ (l : List (String × Bool × Value)) (e : List (String × Nat)) (u r : FMap)
      (e' : List (String × Nat)) (u' r' : FMap),
      (∀ f ∈ l, f.1 ≠ n) →
      getKey r n = some w → getKey u n = some w →
      fieldLoopF fm l e u r = some (e', u', r') →
      getKey r' n = some w ∧ getKey u' n = some w
  | [], e, u, r, e', u', r', _, hr, hu, h => by
    obtain ⟨he1, hu1, hr1⟩ : e = e' ∧ u = u' ∧ r = r' := by
      simpa [fieldLoopF, Prod.ext_iff] using h
    subst he1; subst hu1; subst hr1
    exact ⟨hr, hu⟩
  | (name, anon, fval) :: l, e, u, r, e', u', r', hne, hr, hu, h => by
    have hname : name ≠ n := hne (name, anon, fval) (List.mem_cons_self _ _)
    have hrest : ∀ f ∈ l, f.1 ≠ n := fun f hf => hne f (List.mem_cons_of_mem _ hf)
    cases anon with
    | false =>
      simp only [fieldLoopF, Bool.false_eq_true, if_false] at h
      refine fieldLoopF_preserve fm n w l e (setKey u name fval) (setKey r name fval)
        e' u' r' hrest ?_ ?_ h
      · rw [getKey_setKey_ne r name n fval (Ne.symm hname)]; exact hr
      · rw [getKey_setKey_ne u name n fval (Ne.symm hname)]; exact hu
    | true =>
      simp only [fieldLoopF, if_true] at h
      cases hnil : (canBeNil fval && isNil fval) with
      | true =>
        rw [if_pos hnil] at h
        refine fieldLoopF_preserve fm n w l e u (setKey r name fval) e' u' r' hrest ?_ hu h
        rw [getKey_setKey_ne r name n fval (Ne.symm hname)]; exact hr
      | false =>
        rw [if_neg (by rw [hnil]; exact Bool.false_ne_true)] at h
        cases hfm : fm fval with
        | none => rw [hfm] at h; cases h
        | some inner =>
          rw [hfm] at h
          refine fieldLoopF_preserve fm n w l (addEmbedded e r inner).1 u
            (setKey (addEmbedded e r inner).2 name fval) e' u' r' hrest ?_ hu h
          rw [getKey_setKey_ne _ name n fval (Ne.symm hname), addEmbedded_results_get, hr]

theorem fieldLoopF_unemb_none (fm : Value → Option FMap) (n : String) :
    ∀ (l : List (String × Bool × Value)) (e : List (String × Nat)) (u r : FMap)
      (e' : List (String × Nat)) (u' r' : FMap),
      (∀ f ∈ l, f.1 ≠ n) →
      getKey u n = none →
      fieldLoopF fm l e u r = some (e', u', r') →
      getKey u' n = none
  | [], e, u, r, e', u', r', _, hu, h => by
    obtain ⟨-, hu1, -⟩ : e = e' ∧ u = u' ∧ r = r' := by
      simpa [fieldLoopF, Prod.ext_iff] using h
    subst hu1
    exact hu
  | (name, anon, fval) :: l, e, u, r, e', u', r', hne, hu, h => by
    have hname : name ≠ n := hne (name, anon, fval) (List.mem_cons_self _ _)
    have hrest : ∀ f ∈ l, f.1 ≠ n := fun f hf => hne f (List.mem_cons_of_mem _ hf)
    cases anon with
    | false =>
      simp only [fieldLoopF, Bool.false_eq_true, if_false] at h
      refine fieldLoopF_unemb_none fm n l e (setKey u name fval) (setKey r name fval)
        e' u' r' hrest ?_ h
      rw [getKey_setKey_ne u name n fval (Ne.symm hname)]; exact hu
    | true =>
      simp only [fieldLoopF, if_true] at h
      cases hnil : (canBeNil fval && isNil fval) with
      | true =>
        rw [if_pos hnil] at h
        exact fieldLoopF_unemb_none fm n l e u (setKey r name fval) e' u' r' hrest hu h
      | false =>
        rw [if_neg (by rw [hnil]; exact Bool.false_ne_true)] at h
        cases hfm : fm fval with
        | none => rw [hfm] at h; cases h
        | some inner =>
          rw [hfm] at h
          exact fieldLoopF_unemb_none fm n l (addEmbedded e r inner).1 u
            (setKey (addEmbedded e r inner).2 name fval) e' u' r' hrest hu h

theorem fieldLoopF_count_mono (fm : Value → Option FMap) (n : String) :
    ∀ (l : List (String × Bool × Value)) (e : List (String × Nat)) (u r : FMap)
      (e' : List (String × Nat)) (u' r' : FMap),
      fieldLoopF fm l e u r = some (e', u', r') →
      countOf e n ≤ countOf e' n
  | [], e, u, r, e', u', r', h => by
    obtain ⟨he1, -, -⟩ : e = e' ∧ u = u' ∧ r = r' := by
      simpa [fieldLoopF, Prod.ext_iff] using h
    subst he1
    exact le_refl _
  | (name, anon, fval) :: l, e, u, r, e', u', r', h => by
    cases anon with
    | false =>
      simp only [fieldLoopF, Bool.false_eq_true, if_false] at h
      exact fieldLoopF_count_mono fm n l e _ _ e' u' r' h
    | true =>
      simp only [fieldLoopF, if_true] at h
      cases hnil : (canBeNil fval && isNil fval) with
      | true =>
        rw [if_pos hnil] at h
        exact fieldLoopF_count_mono fm n l e u _ e' u' r' h
      | false =>
        rw [if_neg (by rw [hnil]; exact Bool.false_ne_true)] at h
        cases hfm : fm fval with
        | none => rw [hfm] at h; cases h
        | some inner =>
          rw [hfm] at h
          exact le_trans (addEmbedded_count_ge n inner e r)
            (fieldLoopF_count_mono fm n l _ u _ e' u' r' h)

theorem mem_keys_setKey {α : Type} (k : String) (v : α) (a : String) :
    ∀ (m : List (String × α)),
      a ∈ (setKey m k v).map Prod.fst → a ∈ m.map Prod.fst ∨ a = k
  | [] => by
    intro h
    simp [setKey] at h
    exact Or.inr h
  | (k₀, w) :: rest => by
    intro h
    by_cases h0 : k₀ = k
    · rw [setKey, if_pos h0] at h
      simp only [List.map_cons, List.mem_cons] at h ⊢
      rcases h with rfl | h
      · exact Or.inr rfl
      · exact Or.inl (Or.inr h)
    · rw [setKey, if_neg h0] at h
      simp only [List.map_cons, List.mem_cons] at h ⊢
      rcases h with rfl | h
      · exact Or.inl (Or.inl rfl)
      · rcases mem_keys_setKey k v a rest h with h1 | h1
        · exact Or.inl (Or.inr h1)
        · exact Or.inr h1

theorem setKey_keys_nodup {α : Type} (k : String) (v : α) :
    ∀ (m : List (String × α)), (m.map Prod.fst).Nodup →
      ((setKey m k v).map Prod.fst).Nodup
  | [] => by
    intro _
    simp [setKey]
  | (k₀, w) :: rest => by
    intro h
    simp only [List.map_cons, List.nodup_cons] at h
    by_cases h0 : k₀ = k
    · rw [setKey, if_pos h0]
      simp only [List.map_cons, List.nodup_cons]
      exact ⟨h0 ▸ h.1, h.2⟩
    · rw [setKey, if_neg h0]
      simp only [List.map_cons, List.nodup_cons]
      refine ⟨?_, setKey_keys_nodup k v rest h.2⟩
      intro hmem
      rcases mem_keys_setKey k v k₀ rest hmem with h1 | h1
      · exact h.1 h1
      · exact h0 h1

theorem bumpKey_keys_nodup (m : List (String × Nat)) (k : String)
    (h : (m.map Prod.fst).Nodup) : ((bumpKey m k).map Prod.fst).Nodup := by
  unfold bumpKey
  cases getKey m k with
  | some c => exact setKey_keys_nodup k (c + 1) m h
  | none => exact setKey_keys_nodup k 1 m h

theorem addEmbedded_keys_nodup :
    ∀ (inner : FMap) (emb : List (String × Nat)) (results : FMap),
      (emb.map Prod.fst).Nodup → ((addEmbedded emb results inner).1.map Prod.fst).Nodup
  | [], emb, results, h => h
  | (k, v) :: rest, emb, results, h => by
    rw [addEmbedded_cons]
    exact addEmbedded_keys_nodup rest _ _ (bumpKey_keys_nodup emb k h)

theorem fieldLoopF_emb_nodup (fm : Value → Option FMap) :
    ∀ (l : List (String × Bool × Value)) (e : List (String × Nat)) (u r : FMap)
      (e' : List (String × Nat)) (u' r' : FMap),
      (e.map Prod.fst).Nodup →
      fieldLoopF fm l e u r = some (e', u', r') →
      (e'.map Prod.fst).Nodup
  | [], e, u, r, e', u', r', hnd, h => by
    obtain ⟨he1, -, -⟩ : e = e' ∧ u = u' ∧ r = r' := by
      simpa [fieldLoopF, Prod.ext_iff] using h
    subst he1
    exact hnd
  | (name, anon, fval) :: l, e, u, r, e', u', r', hnd, h => by
    cases anon with
    | false =>
      simp only [fieldLoopF, Bool.false_eq_true, if_false] at h
      exact fieldLoopF_emb_nodup fm l e _ _ e' u' r' hnd h
    | true =>
      simp only [fieldLoopF, if_true] at h
      cases hnil : (canBeNil fval && isNil fval) with
      | true =>
        rw [if_pos hnil] at h
        exact fieldLoopF_emb_nodup fm l e u _ e' u' r' hnd h
      | false =>
        rw [if_neg (by rw [hnil]; exact Bool.false_ne_true)] at h
        cases hfm : fm fval with
        | none => rw [hfm] at h; cases h
        | some inner =>
          rw [hfm] at h
          exact fieldLoopF_emb_nodup fm l _ u _ e' u' r'
            (addEmbedded_keys_nodup inner e r hnd) h

theorem applyConflicts_nil (u r : FMap) : applyConflicts [] u r = r := rfl

theorem applyConflicts_cons (k : String) (c : Nat) (emb : List (String × Nat))
    (u r : FMap) :
    applyConflicts ((k, c) :: emb) u r =
      applyConflicts emb u
        (if c ≤ 1 then r
         else
           match getKey u k with
           | some w => setKey r k w
           | none => delKey r k) := by
  unfold applyConflicts
  rw [List.foldl_cons]

theorem applyConflicts_outer (n : String) (w : Value) :
    ∀ (emb : List (String × Nat)) (u r : FMap),
      getKey u n = some w → getKey r n = some w →
      getKey (applyConflicts emb u r) n = some w
  | [], u, r, _, hr => by rw [applyConflicts_nil]; exact hr
  | (k, c) :: emb, u, r, hu, hr => by
    rw [applyConflicts_cons]
    by_cases hc : c ≤ 1
    · rw [if_pos hc]
      exact applyConflicts_outer n w emb u r hu hr
    · rw [if_neg hc]
      by_cases he : k = n
      · rw [he, hu]
        show getKey (applyConflicts emb u (setKey r n w)) n = some w
        refine applyConflicts_outer n w emb u _ hu ?_
        rw [getKey_setKey_self]
      · cases hk : getKey u k with
        | some w' =>
          refine applyConflicts_outer n w emb u _ hu ?_
          rw [getKey_setKey_ne r k n w' (Ne.symm he)]; exact hr
        | none =>
          refine applyConflicts_outer n w emb u _ hu ?_
          rw [getKey_delKey_ne r k n (Ne.symm he)]; exact hr

theorem applyConflicts_ne (n : String) :
    ∀ (emb : List (String × Nat)) (u r : FMap),
      (∀ p ∈ emb, p.1 ≠ n) →
      getKey (applyConflicts emb u r) n = getKey r n
  | [], u, r, _ => by rw [applyConflicts_nil]
  | (k, c) :: emb, u, r, hne => by
    have hk : k ≠ n := hne (k, c) (List.mem_cons_self _ _)
    have hrest : ∀ p ∈ emb, p.1 ≠ n := fun p hp => hne p (List.mem_cons_of_mem _ hp)
    rw [applyConflicts_cons, applyConflicts_ne n emb u _ hrest]
    by_cases hc : c ≤ 1
    · rw [if_pos hc]
    · rw [if_neg hc]
      cases hku : getKey u k with
      | some w' => rw [getKey_setKey_ne r k n w' (Ne.symm hk)]
      | none => rw [getKey_delKey_ne r k n (Ne.symm hk)]

theorem applyConflicts_del (n : String) :
    ∀ (emb : List (String × Nat)) (u r : FMap) (c : Nat),
      (emb.map Prod.fst).Nodup →
      getKey emb n = some c → 2 ≤ c →
      getKey u n = none →
      getKey (applyConflicts emb u r) n = none
  | [], u, r, c, _, hg, _, _ => by cases hg
  | (k, cnt) :: emb, u, r, c, hnd, hg, hc, hu => by
    have hnd2 : (∀ x : Nat, (k, x) ∉ emb) ∧ (emb.map Prod.fst).Nodup := by
      simpa using hnd
    rw [applyConflicts_cons]
    by_cases he : k = n
    · rw [getKey, if_pos he] at hg
      injection hg with hg2
      have hcnt : ¬ cnt ≤ 1 := by omega
      have hnotin : ∀ p ∈ emb, p.1 ≠ n := by
        intro p hp hpn
        have hpp : p = (k, p.2) := by
          obtain ⟨p1, p2⟩ := p
          simp only at hpn ⊢
          rw [hpn, he]
        exact hnd2.1 p.2 (hpp ▸ hp)
      rw [if_neg hcnt, he, hu]
      show getKey (applyConflicts emb u (delKey r n)) n = none
      rw [applyConflicts_ne n emb u _ hnotin, getKey_delKey_self]
    · rw [getKey, if_neg he] at hg
      exact applyConflicts_del n emb u _ c hnd2.2 hg hc hu

theorem prefixes_head (s : Str) : (Prefixes s).head? = some s := by
  rw [prefixes_eq, List.head?_reverse]
  obtain ⟨m, hm⟩ : ∃ m, (splitDot s).length = m + 1 :=
    ⟨(splitDot s).length - 1, by
      have := List.length_pos.mpr (splitDot_ne_nil s)
      omega⟩
  rw [hm, List.range_succ, List.map_append, List.map_cons, List.map_nil,
    List.getLast?_concat]
  rw [show m + 1 = (splitDot s).length from hm.symm, List.take_length, joinTerms_splitDot]

theorem prefixes_getLast (s : Str) : (Prefixes s).getLast? = some ((splitDot s).headI) := by
  rw [prefixes_eq, List.getLast?_reverse]
  obtain ⟨m, hm⟩ : ∃ m, (splitDot s).length = m + 1 :=
    ⟨(splitDot s).length - 1, by
      have := List.length_pos.mpr (splitDot_ne_nil s)
      omega⟩
  rw [hm, List.range_succ_eq_map, List.map_cons, List.head?_cons]
  cases h : splitDot s with
  | nil => exact absurd h (splitDot_ne_nil s)
  | cons t ts => simp [JoinTerms]

theorem childrenLoop_skip (rec : Str → List Str → Option ((Str × Str × Bool) × List Str))
    (g : Graph) (stop : Graph → Str → Bool) :
    ∀ (cs : List Str) (hist : List Str),
      (∀ c ∈ cs, c ∈ hist ∨ stop g c = true) →
      childrenLoop rec g stop cs hist = some (none, hist)
  | [], _, _ => rfl
  | c :: cs, hist, h => by
    have hrest : ∀ d ∈ cs, d ∈ hist ∨ stop g d = true :=
      fun d hd => h d (List.mem_cons_of_mem c hd)
    rcases h c (List.mem_cons_self c cs) with hm | hs
    · rw [childrenLoop, if_pos hm]
      exact childrenLoop_skip rec g stop cs hist hrest
    · by_cases hm : c ∈ hist
      · rw [childrenLoop, if_pos hm]
        exact childrenLoop_skip rec g stop cs hist hrest
      · rw [childrenLoop, if_neg hm, if_pos hs]
        exact childrenLoop_skip rec g stop cs hist hrest

/-- C9: `Prefixes(s)` lists exactly the dotted prefixes of `s`, ordered from
longest to shortest (lengths strictly decrease along the list), beginning
with `s` itself and ending with the first segment of `s`. -/
theorem prefixes_spec (s : Str) :
    (∀ q, q ∈ Prefixes s ↔ DotPrefixOf q s) ∧
    (Prefixes s).Pairwise (fun a b => b.length < a.length) ∧
    (Prefixes s).head? = some s ∧
    (Prefixes s).getLast? = some ((SplitTerms s).headI) :=
  ⟨fun q => mem_prefixes_iff_dotPrefixOf q s, prefixes_pairwise_length s,
    prefixes_head s, prefixes_getLast s⟩

/-- C1: when `VertexSplit` reports `(p, r, true)` the prefix `p` is a vertex
of the graph, either `r` is empty and `p = s` or `s = p ++ "." ++ r`, and no
strictly longer dotted prefix of `s` is a vertex; when no dotted prefix of
`s` is a vertex the result is `("", s, false)`. -/
theorem vertexSplit_correct (g : Graph) (s : Str) :
    (∀ p r, VertexSplit g s = (p, r, true) →
      g.Contains p = true ∧ ((r = [] ∧ p = s) ∨ s = p ++ '.' :: r) ∧
      (∀ q, DotPrefixOf q s → p.length < q.length → g.Contains q = false)) ∧
    ((∀ q, DotPrefixOf q s → g.Contains q = false) → VertexSplit g s = ([], s, false)) := by
  constructor
  · intro p r h
    cases hf : Find (Prefixes s) (fun pp => g.Contains pp) with
    | mk pfx found =>
      cases found with
      | false => simp [VertexSplit, hf] at h
      | true =>
        simp only [VertexSplit, hf] at h
        obtain ⟨l₁, l₂, hdec, hcont, hl₁⟩ := find_eq_some _ _ _ hf
        have hpw := prefixes_pairwise_length s
        rw [hdec] at hpw
        obtain ⟨-, hpw2, -⟩ := List.pairwise_append.mp hpw
        have hafter : ∀ b ∈ l₂, b.length < pfx.length :=
          (List.pairwise_cons.mp hpw2).1
        have hpfxmem : pfx ∈ Prefixes s := by
          rw [hdec]
          exact List.mem_append_right l₁ (List.mem_cons_self pfx l₂)
        have hcont' : g.Contains pfx = true := by simpa using hcont
        have hlonger : ∀ q, DotPrefixOf q s → pfx.length < q.length →
            g.Contains q = false := by
          intro q hq hlen
          have hqmem : q ∈ Prefixes s := (mem_prefixes_iff_dotPrefixOf q s).mpr hq
          rw [hdec] at hqmem
          rcases List.mem_append.mp hqmem with hq1 | hq2
          · exact hl₁ q hq1
          · rcases List.mem_cons.mp hq2 with rfl | hq3
            · omega
            · exact absurd (hafter q hq3) (by omega)
        by_cases hps : pfx = s
        · rw [if_pos hps] at h
          have hp : pfx = p := congrArg Prod.fst h
          have hr : ([] : Str) = r := congrArg (fun x => x.2.1) h
          subst hp
          subst hr
          exact ⟨hcont', Or.inl ⟨rfl, hps⟩, hlonger⟩
        · rw [if_neg hps] at h
          have hp : pfx = p := congrArg Prod.fst h
          have hr : List.drop (pfx.length + 1) s = r := congrArg (fun x => x.2.1) h
          subst hp
          rcases (mem_prefixes_iff_dotPrefixOf pfx s).mp hpfxmem with rfl | ⟨rest, hrest⟩
          · exact absurd rfl hps
          · have hdrop : List.drop (pfx.length + 1) s = rest := by
              rw [hrest, show pfx ++ '.' :: rest = (pfx ++ ['.']) ++ rest by simp,
                show pfx.length + 1 = (pfx ++ ['.']).length by simp, List.drop_left]
            rw [hdrop] at hr
            subst hr
            exact ⟨hcont', Or.inr hrest, hlonger⟩
  · intro hall
    have hnone : Find (Prefixes s) (fun pp => g.Contains pp) = ([], false) :=
      find_eq_none _ _ fun y hy => hall y ((mem_prefixes_iff_dotPrefixOf y s).mp hy)
    simp [VertexSplit, hnone]

/-- C1 witness: on the graph with vertices `a` and `a.b`, splitting
`a.b.c.d` finds the vertex `a.b`. -/
theorem vertexSplit_correct_witness : gC1.Contains (sl "a.b") = true :=
  ((vertexSplit_correct gC1 (sl "a.b.c.d")).1 (sl "a.b") (sl "c.d") (by decide)).1

/-- C2: in the graph with vertices `root.m1.module`, `root.m1.file.x`,
`root.m2.module` and `root.m2.file.y`, resolving `file.x.dest` from
`root.m2.file.y` under the `TraverseUntilModule` stop policy terminates
(the `some`) and returns not-found, even though `root.m1.file.x` is a
vertex of the graph: the module boundary blocks it and the caller surfaces
the missing-vertex failure. -/
theorem traverse_module_boundary :
    gC2.Contains (sl "root.m1.file.x") = true ∧
    VertexSplitTraverse 10 gC2 (sl "file.x.dest") (sl "root.m2.file.y")
        TraverseUntilModule [] =
      some ((([] : Str), sl "file.x.dest", false),
        [sl "root.m2.file", sl "root.m2.file.y"]) :=
  ⟨rfl, rfl⟩

/-- C5 counterexample: children exhausted without a match and the sibling
lookup `VertexSplit(g, SiblingID(start, name))` would succeed, yet because
`stop(start)` holds the traversal returns not-found — the sibling attempt
is not made when `stop(start)` is true, refuting the claim. -/
theorem traverse_sibling_counterexample :
    VertexSplit gC5 (SiblingID (sl "root.m") (sl "x")) = (sl "root.x", [], true) ∧
    VertexSplitTraverse 5 gC5 (sl "x") (sl "root.m") (fun _ _ => true) [] =
      some ((([] : Str), sl "x", false), [sl "root.m"]) :=
  ⟨rfl, rfl⟩

/-- C5 amended: once the children of the starting vertex are exhausted
without a match, `stop(start)` is checked first; if it holds the function
returns not-found without attempting the sibling, and only otherwise does
it try `VertexSplit(g, SiblingID(start, name))`, recursing to
`ParentID(start)` unconditionally on failure. -/
theorem traverse_sibling_amended (fuel : Nat) (g : Graph) (toFind start : Str)
    (stop : Graph → Str → Bool) (hist : List Str)
    (hch : ∀ c ∈ g.Children start, c ∈ insertHist start hist ∨ stop g c = true) :
    VertexSplitTraverse (fuel + 1) g toFind start stop hist =
      if stop g start then some (([], toFind, false), insertHist start hist)
      else
        let r := VertexSplit g (SiblingID start toFind)
        if r.2.2 then some (r, insertHist start hist)
        else VertexSplitTraverse fuel g toFind (ParentID start) stop
          (insertHist start hist) := by
  have hskip := childrenLoop_skip
    (fun c h => VertexSplitTraverse fuel g toFind c stop h) g stop
    (g.Children start) (insertHist start hist) hch
  simp only [VertexSplitTraverse, hskip]

/-- C5 amended witness: the amended statement applied at the concrete
counterexample input, where the stop predicate holds at the start. -/
theorem traverse_sibling_amended_witness :
    VertexSplitTraverse (4 + 1) gC5 (sl "x") (sl "root.m") (fun _ _ => true) [] =
      some ((([] : Str), sl "x", false), insertHist (sl "root.m") []) := by
  rw [traverse_sibling_amended 4 gC5 (sl "x") (sl "root.m") (fun _ _ => true) []
    (by intro c hc; simp [Graph.Children, gC5] at hc)]
  rfl

/-- C7 counterexample: on the graph containing `task.go-dl`, desugaring
`task.go-dl.dir` emits `(noderef "task.go-dl")| dir` — there is no space
between the node reference and the first pipe, so the output is not the
spec's `(noderef "task.go-dl") | dir`. -/
theorem desugarCall_counterexample :
    DesugarCall gC7 (sl "task.go-dl.dir") = .ok (sl "(noderef \"task.go-dl\")| dir") ∧
    sl "(noderef \"task.go-dl\")| dir" ≠ sl "(noderef \"task.go-dl\") | dir" :=
  ⟨rfl, by decide⟩

/-- C7 amended: when `VertexSplit` matches prefix `p` with remainder `r`,
`DesugarCall` emits exactly `(noderef "p")` when `r` is empty and exactly
`(noderef "p")| f1 | … | fn` otherwise (no space before the first pipe),
where the `f_i` are the dot-separated segments of `r`. -/
theorem desugarCall_amended (g : Graph) (s p r : Str)
    (h : VertexSplit g s = (p, r, true)) :
    (r = [] → DesugarCall g s = .ok ((sl "(noderef ") ++ goQuote p ++ [')'])) ∧
    (r ≠ [] → DesugarCall g s =
      .ok ((sl "(noderef ") ++ goQuote p ++ [')'] ++ (sl "| ") ++
        joinWith (SplitTerms r) (sl " | "))) := by
  constructor
  · intro hr
    subst hr
    simp [DesugarCall, h]
  · intro hr
    simp [DesugarCall, MkCallPipeline, h, hr]

/-- C7 amended witness: the amended statement at the concrete scenario,
with the hypothesis discharged by computation. -/
theorem desugarCall_amended_witness :
    DesugarCall gC7 (sl "task.go-dl.dir") =
      .ok ((sl "(noderef ") ++ goQuote (sl "task.go-dl") ++ [')'] ++ (sl "| ") ++
        joinWith (SplitTerms (sl "dir")) (sl " | ")) :=
  (desugarCall_amended gC7 (sl "task.go-dl.dir") (sl "task.go-dl") (sl "dir")
    (by decide)).2 (by decide)

theorem evalTerms_append (fuel : Nat) :
    ∀ (ts1 : List String) (obj : Value) (ts2 : List String),
      EvalTerms fuel obj (ts1 ++ ts2) =
        match EvalTerms fuel obj ts1 with
        | .ok v => EvalTerms fuel v ts2
        | .errUnresolvable => .errUnresolvable
        | .errNoField a b c => .errNoField a b c
        | .panicked => .panicked
  | [], obj, ts2 => by simp [EvalTerms]
  | t :: ts1, obj, ts2 => by
    cases hfm : FieldMap fuel obj with
    | none => simp [EvalTerms, hfm]
    | some fm =>
      cases hk : getKey (lookupMap fm).1 (goToLower t) with
      | none => simp [EvalTerms, hfm, hk]
      | some key =>
        cases hv : getKey fm key with
        | none => simp [EvalTerms, hfm, hk, hv]
        | some val =>
          cases hnil : isNilPtr val with
          | true => simp [EvalTerms, hfm, hk, hv, hnil]
          | false =>
            simp only [List.cons_append, EvalTerms, hfm, hk, hv, hnil,
              Bool.false_eq_true, if_false]
            exact evalTerms_append fuel ts1 val ts2

theorem fieldMapValue_zero (v : Value) : FieldMap 0 v = none := rfl

theorem fieldMapValue_structV (fuel : Nat) (tn : String)
    (fields : List (String × Bool × Value)) :
    FieldMap (fuel + 1) (.structV tn fields) =
      (fieldLoopF (FieldMap fuel) fields [] [] []).map
        (fun x => applyConflicts x.1 x.2.1 x.2.2) := rfl

theorem fieldMapValue_nil (fuel : Nat) (v : Value) (m : FMap)
    (h : FieldMap fuel v = some m) (hnil : (canBeNil v && isNil v) = true) :
    m = [] := by
  cases fuel with
  | zero => rw [fieldMapValue_zero] at h; cases h
  | succ fuel =>
    rw [FieldMap, if_pos hnil] at h
    injection h with h2
    exact h2.symm

/-- C3: the flattening rules of `FieldMap`.  Rule 1: a field declared on
the outer record (no later field shares its name) is always bound to the
outer field's value, shadowing embedded contributions.  Rule 2: a name
contributed by the maps of two distinct embedded fields and not equal to
any outer field name is removed from the result.  Concretely, for
`Outer{ Name; E1{ Shared; A }; E2{ Shared; B } }` the map exposes `Name`,
`A` and `B` but not `Shared`, and adding a `Shared` field to the outer
record restores the key, bound to the outer field. -/
theorem fieldMap_flattening :
    (∀ (fuel : Nat) (tn : String)
      (fields l₁ l₂ : List (String × Bool × Value)) (n : String) (w : Value) (m : FMap),
      fields = l₁ ++ (n, false, w) :: l₂ →
      (∀ f ∈ l₂, f.1 ≠ n) →
      FieldMap fuel (.structV tn fields) = some m →
      getKey m n = some w) ∧
    (∀ (fuel : Nat) (tn : String)
      (fields l₁ l₂ l₃ : List (String × Bool × Value))
      (n n₁ n₂ : String) (v₁ v₂ : Value) (m m₁ m₂ : FMap) (w₁ w₂ : Value),
      fields = l₁ ++ (n₁, true, v₁) :: (l₂ ++ (n₂, true, v₂) :: l₃) →
      (∀ f ∈ fields, f.1 ≠ n) →
      FieldMap fuel v₁ = some m₁ → getKey m₁ n = some w₁ →
      FieldMap fuel v₂ = some m₂ → getKey m₂ n = some w₂ →
      FieldMap (fuel + 1) (.structV tn fields) = some m →
      getKey m n = none) ∧
    ((FieldMap 2 outerEx).map (fun m =>
        (getKey m "Name", getKey m "A", getKey m "B", getKey m "Shared")) =
      some (some (.str "nm"), some (.str "a1"), some (.str "b1"), none)) ∧
    ((FieldMap 2 outerEx2).map (fun m => getKey m "Shared") =
      some (some (.str "os"))) := by
  refine ⟨?_, ?_, rfl, rfl⟩
  · intro fuel tn fields l₁ l₂ n w m hdec hl₂ hm
    cases fuel with
    | zero => rw [fieldMapValue_zero] at hm; cases hm
    | succ fuel =>
      rw [fieldMapValue_structV] at hm
      cases hl : fieldLoopF (FieldMap fuel) fields [] [] [] with
      | none => rw [hl] at hm; cases hm
      | some x =>
        obtain ⟨e, u, r⟩ := x
        rw [hl] at hm
        injection hm with hm2
        subst hm2
        subst hdec
        rw [fieldLoopF_append] at hl
        cases h1 : fieldLoopF (FieldMap fuel) l₁ [] [] [] with
        | none => rw [h1] at hl; cases hl
        | some y =>
          obtain ⟨e1, u1, r1⟩ := y
          rw [h1] at hl
          have hl2 : fieldLoopF (FieldMap fuel) l₂ e1 (setKey u1 n w) (setKey r1 n w) =
              some (e, u, r) := hl
          have hpres := fieldLoopF_preserve (FieldMap fuel) n w l₂ e1
            (setKey u1 n w) (setKey r1 n w) e u r hl₂
            (getKey_setKey_self r1 n w) (getKey_setKey_self u1 n w) hl2
          exact applyConflicts_outer n w e u r hpres.2 hpres.1
  · intro fuel tn fields l₁ l₂ l₃ n n₁ n₂ v₁ v₂ m m₁ m₂ w₁ w₂ hdec hnone hm₁ hg₁ hm₂ hg₂ hm
    rw [fieldMapValue_structV] at hm
    cases hl : fieldLoopF (FieldMap fuel) fields [] [] [] with
    | none => rw [hl] at hm; cases hm
    | some x =>
      obtain ⟨e, u, r⟩ := x
      rw [hl] at hm
      injection hm with hm2
      subst hm2
      have hu : getKey u n = none :=
        fieldLoopF_unemb_none (FieldMap fuel) n fields [] [] [] e u r hnone rfl hl
      have hnd : (e.map Prod.fst).Nodup :=
        fieldLoopF_emb_nodup (FieldMap fuel) fields [] [] [] e u r (by simp) hl
      have hnn₁ : (canBeNil v₁ && isNil v₁) = false := by
        cases hb : (canBeNil v₁ && isNil v₁) with
        | false => rfl
        | true =>
          have h0 := fieldMapValue_nil fuel v₁ m₁ hm₁ hb
          rw [h0] at hg₁
          cases hg₁
      have hnn₂ : (canBeNil v₂ && isNil v₂) = false := by
        cases hb : (canBeNil v₂ && isNil v₂) with
        | false => rfl
        | true =>
          have h0 := fieldMapValue_nil fuel v₂ m₂ hm₂ hb
          rw [h0] at hg₂
          cases hg₂
      subst hdec
      rw [fieldLoopF_append] at hl
      cases h1 : fieldLoopF (FieldMap fuel) l₁ [] [] [] with
      | none => rw [h1] at hl; cases hl
      | some y =>
        obtain ⟨e1, u1, r1⟩ := y
        rw [h1] at hl
        have hl2 : fieldLoopF (FieldMap fuel)
            ((n₁, true, v₁) :: (l₂ ++ (n₂, true, v₂) :: l₃)) e1 u1 r1 =
            some (e, u, r) := hl
        have hstep₁ : fieldLoopF (FieldMap fuel) (l₂ ++ (n₂, true, v₂) :: l₃)
            (addEmbedded e1 r1 m₁).1 u1 (setKey (addEmbedded e1 r1 m₁).2 n₁ v₁) =
            some (e, u, r) := by
          have heq : fieldLoopF (FieldMap fuel)
              ((n₁, true, v₁) :: (l₂ ++ (n₂, true, v₂) :: l₃)) e1 u1 r1 =
              fieldLoopF (FieldMap fuel) (l₂ ++ (n₂, true, v₂) :: l₃)
                (addEmbedded e1 r1 m₁).1 u1
                (setKey (addEmbedded e1 r1 m₁).2 n₁ v₁) := by
            simp only [fieldLoopF, if_true]
            rw [if_neg (by rw [hnn₁]; exact Bool.false_ne_true), hm₁]
          rw [← heq]
          exact hl2
        have hcnt₁ : 1 ≤ countOf (addEmbedded e1 r1 m₁).1 n := by
          have := addEmbedded_count_mem n m₁ e1 r1 w₁ hg₁
          omega
        rw [fieldLoopF_append] at hstep₁
        cases h2 : fieldLoopF (FieldMap fuel) l₂ (addEmbedded e1 r1 m₁).1 u1
            (setKey (addEmbedded e1 r1 m₁).2 n₁ v₁) with
        | none => rw [h2] at hstep₁; cases hstep₁
        | some z =>
          obtain ⟨e2, u2, r2⟩ := z
          rw [h2] at hstep₁
          have hcnt₂ : 1 ≤ countOf e2 n :=
            le_trans hcnt₁ (fieldLoopF_count_mono (FieldMap fuel) n l₂ _ _ _ e2 u2 r2 h2)
          have hstep₂ : fieldLoopF (FieldMap fuel) l₃
              (addEmbedded e2 r2 m₂).1 u2 (setKey (addEmbedded e2 r2 m₂).2 n₂ v₂) =
              some (e, u, r) := by
            have heq : fieldLoopF (FieldMap fuel) ((n₂, true, v₂) :: l₃) e2 u2 r2 =
                fieldLoopF (FieldMap fuel) l₃ (addEmbedded e2 r2 m₂).1 u2
                  (setKey (addEmbedded e2 r2 m₂).2 n₂ v₂) := by
              simp only [fieldLoopF, if_true]
              rw [if_neg (by rw [hnn₂]; exact Bool.false_ne_true), hm₂]
            rw [← heq]
            exact hstep₁
          have hcnt₃ : 2 ≤ countOf (addEmbedded e2 r2 m₂).1 n := by
            have := addEmbedded_count_mem n m₂ e2 r2 w₂ hg₂
            omega
          have hcnt₄ : 2 ≤ countOf e n :=
            le_trans hcnt₃ (fieldLoopF_count_mono (FieldMap fuel) n l₃ _ _ _ e u r hstep₂)
          obtain ⟨c, hc⟩ : ∃ c, getKey e n = some c := by
            cases hgc : getKey e n with
            | none =>
              rw [countOf, hgc] at hcnt₄
              simp at hcnt₄
            | some c => exact ⟨c, rfl⟩
          have hc2 : 2 ≤ c := by
            rw [countOf, hc] at hcnt₄
            simpa using hcnt₄
          exact applyConflicts_del n e u r c hnd hc hc2 hu

/-- C3 witness: rule 1 applied at the concrete record `Outer2` (the outer
`Shared` field restored), with all hypotheses discharged by computation. -/
theorem fieldMap_flattening_witness :
    getKey [("Name", Value.str "nm"), ("Shared", .str "os"), ("A", .str "a1"),
      ("E1", e1Val), ("B", .str "b1"), ("E2", e2Val)] "Shared" = some (.str "os") :=
  fieldMap_flattening.1 2 "Outer2"
    [("Name", false, .str "nm"), ("E1", true, e1Val), ("E2", true, e2Val),
      ("Shared", false, .str "os")]
    [("Name", false, .str "nm"), ("E1", true, e1Val), ("E2", true, e2Val)] []
    "Shared" (.str "os")
    [("Name", Value.str "nm"), ("Shared", .str "os"), ("A", .str "a1"),
      ("E1", e1Val), ("B", .str "b1"), ("E2", e2Val)]
    rfl (by simp) rfl

/-- C4: `EvalTerms` is a left fold of field accesses that distinguishes two
failures: a term whose lowercase form keys no field of the current value
yields the named error enumerating the valid field names, and a field whose
value is a nil pointer yields the sentinel `ErrUnresolvable`; in particular
on `objC4`, whose `Cfg` field is a nil pointer, `EvalTerms(obj, "cfg",
"host")` returns `ErrUnresolvable` and not a missing-field error. -/
theorem evalTerms_errors :
    (∀ (fuel : Nat) (ts1 : List String) (obj : Value) (ts2 : List String),
      EvalTerms fuel obj (ts1 ++ ts2) =
        match EvalTerms fuel obj ts1 with
        | .ok v => EvalTerms fuel v ts2
        | .errUnresolvable => .errUnresolvable
        | .errNoField a b c => .errNoField a b c
        | .panicked => .panicked) ∧
    (∀ (fuel : Nat) (obj : Value) (fm : FMap) (t : String) (rest : List String),
      FieldMap fuel obj = some fm →
      getKey (lookupMap fm).1 (goToLower t) = none →
      EvalTerms fuel obj (t :: rest) =
        .errNoField (typeName obj) (goToLower t) ((lookupMap fm).1.map Prod.fst)) ∧
    (∀ (fuel : Nat) (obj : Value) (fm : FMap) (t : String) (rest : List String)
      (key : String) (v : Value),
      FieldMap fuel obj = some fm →
      getKey (lookupMap fm).1 (goToLower t) = some key →
      getKey fm key = some v → isNilPtr v = true →
      EvalTerms fuel obj (t :: rest) = .errUnresolvable) ∧
    EvalTerms 1 objC4 ["cfg", "host"] = .errUnresolvable ∧
    (∀ tn tm ks, EvalRes.errUnresolvable ≠ .errNoField tn tm ks) := by
  refine ⟨fun fuel ts1 obj ts2 => evalTerms_append fuel ts1 obj ts2, ?_, ?_, rfl, ?_⟩
  · intro fuel obj fm t rest hfm hk
    simp only [EvalTerms, hfm, hk]
  · intro fuel obj fm t rest key v hfm hk hv hnil
    simp only [EvalTerms, hfm, hk, hv, hnil, if_true]
  · intro tn tm ks h
    cases h

/-- C4 witness: the missing-field arm of `evalTerms_errors` applied to the
concrete record, with every hypothesis discharged by computation. -/
theorem evalTerms_errors_witness :
    EvalTerms 1 objC4 ["nope"] = .errNoField "Obj" "nope" ["cfg", "port"] := by
  have h := evalTerms_errors.2.1 1 objC4 [("Cfg", .ptr none), ("Port", .intV 80)]
    "nope" [] (by rfl) (by rfl)
  simpa using h

/-- C8 counterexample: invoking `EvalTerms` on a value that is not a record
does not return an error — it hits the reflect panic
(`NumField of non-struct type`), modelled by `panicked` (the fuel is not
exhausted: the very first unfolding reaches the non-struct branch). -/
theorem evalTerms_panics_counterexample :
    EvalTerms 1 (Value.str "hi") ["x"] = .panicked ∧
    (∀ v, EvalRes.panicked ≠ .ok v) ∧
    EvalRes.panicked ≠ .errUnresolvable ∧
    (∀ tn tm ks, EvalRes.panicked ≠ .errNoField tn tm ks) := by
  refine ⟨rfl, ?_, ?_, ?_⟩
  · intro v h; cases h
  · intro h; cases h
  · intro tn tm ks h; cases h

/-- C8 amended: `ListFields` on a non-record input returns the
`element is %s, not a struct` error naming the offending type, but
`EvalTerms` applied to a non-record value does not return an error — it
panics (the `FieldMap` reflect panic), modelled by `panicked`. -/
theorem listFields_notastruct_amended :
    (∀ t : GoType, (∀ n fields, derefT t ≠ .structT n fields) →
      ListFields t = .error ("element is " ++ goTypeName (derefT t) ++ ", not a struct")) ∧
    EvalTerms 1 (Value.str "hi") ["x"] = .panicked := by
  constructor
  · intro t h
    unfold ListFields
    cases hd : derefT t with
    | structT n fields => exact absurd hd (h n fields)
    | prim n => rfl
    | ptrT t2 => rfl
  · rfl

/-- C8 amended witness: the `ListFields` arm at the concrete non-struct
type `int`. -/
theorem listFields_notastruct_amended_witness :
    ListFields (.prim "int") = .error "element is int, not a struct" := by
  have h := listFields_notastruct_amended.1 (.prim "int")
    (by intro n fields hh; simp [derefT] at hh)
  simpa [derefT, goTypeName] using h

/-- C6: the lowercase-to-canonical field-name mapping computed for a type
depends on which other types were computed before it, contradicting the
determinism contract.  With `E{B}` and `O{A; E embedded}`: computing `E`
against a fresh cache yields `{b}`, but computing `E` after `O` (which
pollutes the cache entry for `E` with `O`'s accumulated map) yields
`{a, e, b}`. -/
theorem fieldMapCache_order_dependent :
    fieldMap 10 eType [] = some (some [("b", "B")], [("E", [("b", "B")])]) ∧
    fieldMap 10 oType [] =
      some (some [("a", "A"), ("e", "E"), ("b", "B")],
        [("E", [("a", "A"), ("e", "E"), ("b", "B")]),
          ("O", [("a", "A"), ("e", "E"), ("b", "B")])]) ∧
    fieldMap 10 eType
        [("E", [("a", "A"), ("e", "E"), ("b", "B")]),
          ("O", [("a", "A"), ("e", "E"), ("b", "B")])] =
      some (some [("a", "A"), ("e", "E"), ("b", "B")],
        [("E", [("a", "A"), ("e", "E"), ("b", "B")]),
          ("O", [("a", "A"), ("e", "E"), ("b", "B")])]) ∧
    ([("a", "A"), ("e", "E"), ("b", "B")] : SMap) ≠ [("b", "B")] :=
  ⟨rfl, rfl, rfl, by decide⟩

theorem isMaxUint32_iff (o : Option Nat) : isMaxUint32 o = true ↔ o = some (2 ^ 32 - 1) := by
  cases o with
  | none => simp [isMaxUint32]
  | some u =>
    simp only [isMaxUint32, beq_iff_eq, Option.some.injEq]
    constructor
    · intro h; rw [h]; norm_num
    · intro h; rw [h]; norm_num

/-- C10: `Prepare` for the `user.user` resource returns an error (and no
task) exactly when the uid is `2^32 - 1`, the gid is `2^32 - 1`, or
`move_dir` is set while `home_dir` is empty; in every other case it
returns a task whose fields are copied from the preparer, with the state
defaulting to `present` when unset and uid/gid stringified. -/
theorem user_prepare_spec (p : Preparer) :
    ((∃ e, Prepare p = .error e) ↔
      (p.UID = some (2 ^ 32 - 1) ∨ p.GID = some (2 ^ 32 - 1) ∨
        (p.MoveDir = true ∧ p.HomeDir = ""))) ∧
    ((p.UID ≠ some (2 ^ 32 - 1) ∧ p.GID ≠ some (2 ^ 32 - 1) ∧
      ¬(p.MoveDir = true ∧ p.HomeDir = "")) → ∃ u, Prepare p = .ok u) ∧
    (∀ u, Prepare p = .ok u →
      u.Username = p.Username ∧ u.NewUsername = p.NewUsername ∧
      u.GroupName = p.GroupName ∧ u.Name = p.Name ∧ u.HomeDir = p.HomeDir ∧
      u.MoveDir = p.MoveDir ∧
      u.State = (if p.State = "" then StatePresent else p.State) ∧
      u.UID = (match p.UID with | some x => toString x | none => "") ∧
      u.GID = (match p.GID with | some x => toString x | none => "")) := by
  by_cases hu : isMaxUint32 p.UID
  · have hc : p.UID = some (2 ^ 32 - 1) := (isMaxUint32_iff p.UID).mp hu
    refine ⟨⟨fun _ => Or.inl hc,
      fun _ => ⟨"user \"uid\" parameter out of range", by simp [Prepare, hu]⟩⟩, ?_, ?_⟩
    · intro hcond; exact absurd hc hcond.1
    · intro u hok
      simp [Prepare, hu] at hok
  · by_cases hg : isMaxUint32 p.GID
    · have hc : p.GID = some (2 ^ 32 - 1) := (isMaxUint32_iff p.GID).mp hg
      refine ⟨⟨fun _ => Or.inr (Or.inl hc),
        fun _ => ⟨"user \"gid\" parameter out of range", by simp [Prepare, hu, hg]⟩⟩, ?_, ?_⟩
      · intro hcond; exact absurd hc hcond.2.1
      · intro u hok
        simp [Prepare, hu, hg] at hok
    · by_cases hm : p.MoveDir && (p.HomeDir == "")
      · have hc : p.MoveDir = true ∧ p.HomeDir = "" := by
          simpa using hm
        refine ⟨⟨fun _ => Or.inr (Or.inr hc),
          fun _ => ⟨"user \"home_dir\" parameter required with \"move_dir\" parameter",
            by simp [Prepare, hu, hg, hm]⟩⟩, ?_, ?_⟩
        · intro hcond; exact absurd hc hcond.2.2
        · intro u hok
          simp [Prepare, hu, hg, hm] at hok
      · have hok : Prepare p = .ok
            { Username := p.Username, NewUsername := p.NewUsername,
              GroupName := p.GroupName, Name := p.Name, HomeDir := p.HomeDir,
              MoveDir := p.MoveDir,
              State := if p.State == "" then StatePresent else p.State,
              UID := match p.UID with | some u => toString u | none => "",
              GID := match p.GID with | some u => toString u | none => "" } := by
          simp [Prepare, hu, hg, hm]
        refine ⟨⟨?_, ?_⟩, fun _ => ⟨_, hok⟩, ?_⟩
        · rintro ⟨e, he⟩
          rw [hok] at he
          cases he
        · rintro (h | h | h)
          · exact absurd ((isMaxUint32_iff p.UID).mpr h) hu
          · exact absurd ((isMaxUint32_iff p.GID).mpr h) hg
          · exact absurd (by simp [h.1, h.2]) hm
        · intro u hoku
          rw [hok] at hoku
          injection hoku with h2
          subst h2
          refine ⟨rfl, rfl, rfl, rfl, rfl, rfl, ?_, rfl, rfl⟩
          by_cases hs : p.State = "" <;> simp [hs]

/-- C10 witness: a valid preparer input produces the expected task; shown
here for the state-defaulting field, via the ok-arm of the theorem with
its hypothesis discharged by computation. -/
theorem user_prepare_spec_witness :
    uC10.State = (if pC10.State = "" then StatePresent else pC10.State) :=
  ((user_prepare_spec pC10).2.2 uC10 (by rfl)).2.2.2.2.2.2.1

end Converge
